import Mathlib

set_option maxHeartbeats 1000000

namespace ScoutIQ

/-! Shallow embedding of the ScoutIQ analytics core
(`src/ai/feature_engineering.py`, `src/ai/rag_store.py`,
`src/ai/strategy_simulator.py`).  Python floats are idealised as exact
arithmetic: rationals where the code only adds, multiplies and divides,
and reals where a square root appears (cosine similarity). -/

/-- A JSON scalar value as it can appear in a record field. -/
inductive Jv where
  | str (s : String)
  | num (q : ℚ)
deriving DecidableEq

/-- A JSON object (a Python dict with string keys), as an association list;
Python dicts have unique keys and preserve insertion order. -/
abbrev Dict := List (String × Jv)

/-- Python `d.get(k, default)`. -/
def dictGet (m : Dict) (k : String) (d : Jv) : Jv :=
  (List.lookup k m).getD d

/-- The digits-only core of Python `int(str)`: all characters must be decimal
digits and there must be at least one.  (Python additionally accepts
underscore digit grouping, which nothing in this development uses.) -/
def parseDigits (l : List Char) : Option ℕ :=
  if l ≠ [] ∧ l.all Char.isDigit then
    some (l.foldl (fun a c => 10 * a + (c.toNat - 48)) 0)
  else none

/-- Python `int(s)`: optional surrounding whitespace, an optional sign, then
decimal digits. -/
def pyInt (l : List Char) : Option ℤ :=
  let t := ((l.dropWhile Char.isWhitespace).reverse.dropWhile Char.isWhitespace).reverse
  match t with
  | '-' :: ds => (parseDigits ds).map (fun n => -(n : ℤ))
  | '+' :: ds => (parseDigits ds).map (fun n => (n : ℤ))
  | ds => (parseDigits ds).map (fun n => (n : ℤ))

/-- Worker for `splitSep`: `acc` holds the (reversed) chars of the current
piece.  The fuel argument only makes the recursion structural (each step
consumes at least one input char, so `splitSep` passes enough fuel and the
middle branch is never reached). -/
def splitSepGo (c : Char) (cs : List Char) : ℕ → List Char → List Char → List (List Char)
  | _, acc, [] => [acc.reverse]
  | 0, acc, l => [acc.reverse ++ l]
  | fuel + 1, acc, b :: rest =>
    if (b :: rest).take (cs.length + 1) = c :: cs then
      acc.reverse :: splitSepGo c cs fuel [] (List.drop cs.length rest)
    else
      splitSepGo c cs fuel (b :: acc) rest

/-- Python `str.split(sep)` for the non-empty separator `c :: cs`: split at
each non-overlapping occurrence, scanning left to right; no occurrence
yields the one-element list holding the whole input. -/
def splitSep (c : Char) (cs : List Char) (l : List Char) : List (List Char) :=
  splitSepGo c cs l.length [] l

/-- `np.clip x lo hi` for rationals (`lo ≤ hi` at every use site). -/
def clipQ (lo hi x : ℚ) : ℚ := max lo (min hi x)

/-- `np.mean` of a list of rationals (only applied to non-empty lists). -/
def mean (l : List ℚ) : ℚ := l.sum / l.length

/-- The `total_rounds` parsed by one iteration of the `calculate_tempo_score`
loop, `none` when the match is skipped (any parse failure is swallowed by the
bare `except`, a non-positive total fails the `total_rounds > 0` guard). -/
def tempoRounds (m : Dict) : Option ℤ :=
  match dictGet m "score" (Jv.str "0 - 0") with
  | Jv.num _ => none
  | Jv.str s =>
    let parts := splitSep ' ' ['-', ' '] s.data
    match parts[0]?, parts[1]? with
    | some p0, some p1 =>
      match pyInt p0, pyInt p1 with
      | some a, some b =>
        if 0 < a + b then some (a + b) else none
      | _, _ => none
    | _, _ => none

/-- The per-match body of the `calculate_tempo_score` loop: the value
`1 - total_rounds / 30` appended to `tempo_scores`, or `none` when the match
is skipped. -/
def tempoVal (m : Dict) : Option ℚ :=
  (tempoRounds m).map (fun t : ℤ => 1 - (t : ℚ) / 30)

/-- The `tempo_scores` list built by the loop in `calculate_tempo_score`. -/
def tempo_scores (ms : List Dict) : List ℚ :=
  ms.filterMap tempoVal

/-- `calculate_tempo_score` from `feature_engineering.py`. -/
def calculate_tempo_score (ms : List Dict) : ℚ :=
  if ms = [] then 1/2
  else clipQ 0 1 (if tempo_scores ms = [] then 1/2 else mean (tempo_scores ms))

/-- The `(won, lost)` pair parsed from a match's score inside
`calculate_comeback_probability`; `none` when the bare `except` skips the
match. -/
def scoreParts (m : Dict) : Option (ℤ × ℤ) :=
  match dictGet m "score" (Jv.str "0 - 0") with
  | Jv.num _ => none
  | Jv.str s =>
    let parts := splitSep ' ' ['-', ' '] s.data
    match parts[0]?, parts[1]? with
    | some p0, some p1 =>
      match pyInt p0, pyInt p1 with
      | some a, some b => some (a, b)
      | _, _ => none
    | _, _ => none

/-- One iteration of the `calculate_comeback_probability` loop on the
`(total, comebacks)` counters. -/
def comebackStep (tc : ℕ × ℕ) (m : Dict) : ℕ × ℕ :=
  match scoreParts m with
  | none => tc
  | some wl =>
    let t1 := if List.lookup "result" m = some (Jv.str "loss") ∧ wl.2 - wl.1 ≤ 2
              then tc.1 + 1 else tc.1
    if List.lookup "result" m = some (Jv.str "win") ∧ 4 ≤ wl.1 - wl.2
    then (t1 + 1, tc.2 + 1) else (t1, tc.2)

/-- The final `(total, comebacks)` counters of `calculate_comeback_probability`. -/
def comebackCounts (ms : List Dict) : ℕ × ℕ :=
  ms.foldl comebackStep (0, 0)

/-- `calculate_comeback_probability` from `feature_engineering.py`. -/
def calculate_comeback_probability (ms : List Dict) : ℚ :=
  if ms = [] then 1/2
  else
    let tc := comebackCounts ms
    if 0 < tc.1 then (tc.2 : ℚ) / (tc.1 : ℚ) else 1/2

/-- The binary win indicator `df['win']` of `calculate_win_rate_trend`:
a missing `result` key is `NaN` in the DataFrame column and compares unequal
to `'win'`, as does any non-`'win'` value. -/
def winInd (m : Dict) : ℚ :=
  if List.lookup "result" m = some (Jv.str "win") then 1 else 0

/-- `calculate_win_rate_trend` from `feature_engineering.py`.  The function has
no try/except of its own: when no record at all carries a `result` key (and
the list has length at least 2), `pd.DataFrame(matches)['result']` raises
`KeyError`, modelled as `Except.error`.  Otherwise
`rolling(window=3, min_periods=1).mean()` at the last position is the mean of
the last `min 3 n` indicators. -/
def calculate_win_rate_trend (ms : List Dict) : Except String ℚ :=
  if ms.length < 2 then .ok 0
  else if ms.all (fun m => (List.lookup "result" m).isNone) then
    .error "KeyError: result"
  else
    let wins := ms.map winInd
    let rolling_last := mean (wins.drop (wins.length - 3))
    let recent_trend := rolling_last - mean wins
    .ok (clipQ (-1) 1 recent_trend)

/-- The `win_rate` computed in `main` of `feature_engineering.py`. -/
def win_rate (ms : List Dict) : ℚ :=
  if ms = [] then 1/2
  else ((ms.countP
          (fun m => decide (List.lookup "result" m = some (Jv.str "win")))) : ℚ)
        / ms.length

/-- The number denoted by a most-significant-first decimal digit list (used
to quantify over well-formed score strings). -/
def digitsVal (ds : List ℕ) : ℕ :=
  ds.foldl (fun a d => 10 * a + d) 0

/-- The characters of a decimal digit list. -/
def digitsChars (ds : List ℕ) : List Char :=
  ds.map Nat.digitChar

/-- Modelled from the spec wording for C2 (not from the code): a parsed match
qualifies iff it is a loss whose absolute margin `|won - lost|` is at most 2,
or a win whose absolute margin is at least 4; the latter count as comebacks. -/
def comebackStepAbs (tc : ℕ × ℕ) (m : Dict) : ℕ × ℕ :=
  match scoreParts m with
  | none => tc
  | some wl =>
    let t1 := if List.lookup "result" m = some (Jv.str "loss") ∧ (wl.1 - wl.2).natAbs ≤ 2
              then tc.1 + 1 else tc.1
    if List.lookup "result" m = some (Jv.str "win") ∧ 4 ≤ (wl.1 - wl.2).natAbs
    then (t1 + 1, tc.2 + 1) else (t1, tc.2)

/-- Modelled from the spec wording for C2: `comebackProbability` with
membership decided by the absolute score difference. -/
def comebackProbabilityAbs (ms : List Dict) : ℚ :=
  if ms = [] then 1/2
  else
    let tc := ms.foldl comebackStepAbs (0, 0)
    if 0 < tc.1 then (tc.2 : ℚ) / (tc.1 : ℚ) else 1/2

/-! ### strategy_simulator.py -/

/-- `features.get(k, 0.5)` as used by `simulate_match`: a missing field
contributes the default `0.5`; a non-numeric value makes the arithmetic
`(value - 0.5) * c` raise `TypeError` (modelled as `none`), which the caller's
envelope turns into an error response. -/
def getFeat (f : Dict) (k : String) : Option ℚ :=
  match List.lookup k f with
  | none => some (1/2)
  | some (Jv.num q) => some q
  | some (Jv.str _) => none

/-- The deterministic base probability of `simulate_match` in
`strategy_simulator.py`: `0.5` plus the three weighted feature adjustments,
clamped to `[0.1, 0.9]` by `max(0.1, min(0.9, _))`. -/
def base_prob (f : Dict) : Option ℚ := do
  let w ← getFeat f "win_rate"
  let t ← getFeat f "tempo_score"
  let c ← getFeat f "comeback_probability"
  some (max 0.1 (min 0.9 (0.5 + (w - 0.5) * 0.4 + (t - 0.5) * 0.1 + (c - 0.5) * 0.1)))

/-- Python `round(x, 3)` on rationals, rounding half up at the third decimal
(floats round half to even there; the two differ only at exact
half-thousandths, which no claim distinguishes). -/
def roundQ3 (x : ℚ) : ℚ := ((round (1000 * x) : ℤ) : ℚ) / 1000

/-- `simulate_match` with the `num_simulations` uniform draws of the Monte
Carlo loop passed explicitly (the loop counts draws strictly below
`base_prob`). -/
def simulate_match (f : Dict) (draws : List ℚ) : Option ℚ :=
  (base_prob f).map
    (fun b => roundQ3 (((draws.countP (fun x => decide (x < b))) : ℚ) / draws.length))

/-! ### rag_store.py -/

/-- Worker for `pySplitWs`; `acc` holds the (reversed) chars of the current
word. -/
def splitWsGo : List Char → List Char → List (List Char)
  | acc, [] => if acc = [] then [] else [acc.reverse]
  | acc, c :: r =>
    if c.isWhitespace then
      (if acc = [] then splitWsGo [] r else acc.reverse :: splitWsGo [] r)
    else splitWsGo (c :: acc) r

/-- Python `str.split()` with no separator: split on whitespace runs,
discarding empty pieces. -/
def pySplitWs (l : List Char) : List (List Char) :=
  splitWsGo [] l

/-- One step of the `word_counts` dict building in `text_to_vector`: Python
dicts keep insertion order, so an existing key is bumped in place and a new
key is appended. -/
def bumpWord (acc : List (List Char × ℕ)) (w : List Char) : List (List Char × ℕ) :=
  if acc.any (fun p => decide (p.1 = w)) then
    acc.map (fun p => if p.1 = w then (p.1, p.2 + 1) else p)
  else acc ++ [(w, 1)]

/-- The `word_counts` dict of `text_to_vector`, as an ordered association
list. -/
def word_counts (ws : List (List Char)) : List (List Char × ℕ) :=
  ws.foldl bumpWord []

/-- `text_to_vector` from `rag_store.py`: lower-case, split on whitespace,
and take the occurrence counts in first-occurrence order. -/
def text_to_vector (s : String) : List ℚ :=
  (word_counts (pySplitWs (s.data.map Char.toLower))).map (fun p => ((p.2 : ℕ) : ℚ))

/-- `dot = sum(x * y for x, y in zip(a, b))`: the positional dot product over
the shorter common length. -/
def dot (a b : List ℚ) : ℚ :=
  ((a.zip b).map (fun p => p.1 * p.2)).sum

/-- `sum(x * x for x in a)`, the square of the L2 norm `norm_a`. -/
def sumSq (a : List ℚ) : ℚ :=
  (a.map (fun x => x * x)).sum

/-- The exact value of a float of the form `num / sqrt den` (`den > 0` for
every value the program builds; `toReal` guards the degenerate case). -/
structure SimVal where
  num : ℚ
  den : ℚ
deriving DecidableEq

/-- The real number a `SimVal` stands for. -/
noncomputable def SimVal.toReal (s : SimVal) : ℝ :=
  if 0 < s.den then (s.num : ℝ) / Real.sqrt (s.den : ℝ) else 0

/-- `cosine_similarity` from `rag_store.py`.  `norm_a * norm_b > 0` for the
nonnegative floats `norm_a = sqrt (sumSq a)`, `norm_b = sqrt (sumSq b)` is
equivalent to `sumSq a * sumSq b > 0`; the guarded branch returns
`dot / (norm_a * norm_b) = dot / sqrt (sumSq a * sumSq b)`, the other `0`. -/
def cosine_similarity (a b : List ℚ) : SimVal :=
  if 0 < sumSq a * sumSq b then ⟨dot a b, sumSq a * sumSq b⟩ else ⟨0, 1⟩

/-- The square of the value a `SimVal` stands for, as a rational. -/
def SimVal.sq (s : SimVal) : ℚ :=
  if 0 < s.den then s.num ^ 2 / s.den else 0

/-- A rational with the sign of the value a `SimVal` stands for. -/
def SimVal.sgnNum (s : SimVal) : ℚ :=
  if 0 < s.den then s.num else 0

/-- The comparison the Python float `<=` performs on two similarity values,
decided exactly: compare signs, then compare squares on the common sign. -/
def SimVal.le (s t : SimVal) : Bool :=
  if 0 ≤ t.sgnNum then decide (s.sgnNum ≤ 0) || decide (s.sq ≤ t.sq)
  else decide (s.sgnNum < 0) && decide (t.sq ≤ s.sq)

/-- Two similarity values are equal as real numbers (decidably): each is `le`
the other. -/
def simEquiv (s t : SimVal) : Bool :=
  SimVal.le s t && SimVal.le t s

/-- How an arbitrary JSON scalar appears inside the query f-string
`f"{teamName} {result} {opponent}"` (Python `str()`; the exact rendering of
non-string values is irrelevant to every claim). -/
def jvStr (v : Jv) : String :=
  match v with
  | .str s => s
  | .num q => toString q

/-- The text `f"{match.get('teamName', '')} {match.get('result', '')}
{match.get('opponent', '')}"` built for each corpus record. -/
def matchText (m : Dict) : String :=
  jvStr (dictGet m "teamName" (Jv.str "")) ++ " " ++
  jvStr (dictGet m "result" (Jv.str "")) ++ " " ++
  jvStr (dictGet m "opponent" (Jv.str ""))

/-- The descending-similarity order `scored.sort(key=lambda x: -x[0])` sorts
by (ascending in the negated key is descending in the key). -/
def simGE (p q : SimVal × Dict) : Prop :=
  SimVal.le q.1 p.1 = true

instance : DecidableRel simGE :=
  fun p q => instDecidableEqBool (SimVal.le q.1 p.1) true

/-- The `scored` list of `find_similar_matches`: each record paired with its
similarity to the query. -/
def scoredList (query : String) (history : List Dict) : List (SimVal × Dict) :=
  history.map
    (fun m => (cosine_similarity (text_to_vector query) (text_to_vector (matchText m)), m))

/-- `scored` after `scored.sort(key=lambda x: -x[0])`.  Python's sort is
stable, and a stable sort by a total preorder is unique, so the insertion
sort computes the same list. -/
def sortedScored (query : String) (history : List Dict) : List (SimVal × Dict) :=
  List.insertionSort simGE (scoredList query history)

/-- Python's slice `l[:k]`, including the negative-index semantics
`l[:k] = l[:len(l)+k]` for `k < 0`. -/
def pySliceTo {α : Type} (l : List α) (k : ℤ) : List α :=
  if 0 ≤ k then l.take k.toNat else l.take (l.length + k).toNat

/-- One element of the list `find_similar_matches` returns: `match.copy()`
with the `similarity` and `rank` values attached (the untouched original
record is the `record` field; the rounded similarity is the derived
`SimilarityResult.similarity`). -/
structure SimilarityResult where
  record : Dict
  simVal : SimVal
  rank : ℕ
deriving DecidableEq

/-- `find_similar_matches` from `rag_store.py`: score, sort descending,
truncate to `top_k`, and attach 1-based ranks in sorted order. -/
def find_similar_matches (query : String) (history : List Dict) (top_k : ℤ) :
    List SimilarityResult :=
  ((pySliceTo (sortedScored query history) top_k).enum).map
    (fun ip => ⟨ip.2.2, ip.2.1, ip.1 + 1⟩)

/-- Python `round(x, 3)` on reals (see `roundQ3` for the tie-break remark). -/
noncomputable def round3R (x : ℝ) : ℝ :=
  ((round (1000 * x) : ℤ) : ℝ) / 1000

/-- The `similarity` value attached to a returned record:
`round(sim, 3)`. -/
noncomputable def SimilarityResult.similarity (r : SimilarityResult) : ℝ :=
  round3R r.simVal.toReal

/-- The `MOCK_HISTORY` corpus hard-coded in `rag_store.py`. -/
def MOCK_HISTORY : List Dict :=
  [ [("teamName", Jv.str "C9"), ("result", Jv.str "win"), ("score", Jv.str "13-5"),
     ("opponent", Jv.str "T1")],
    [("teamName", Jv.str "C9"), ("result", Jv.str "loss"), ("score", Jv.str "11-13"),
     ("opponent", Jv.str "G2")],
    [("teamName", Jv.str "C9"), ("result", Jv.str "win"), ("score", Jv.str "13-3"),
     ("opponent", Jv.str "NAVI")] ]

/-! ### Helper lemmas: splitting and integer parsing -/

theorem splitSepGo_fuel (c : Char) (cs : List Char) :
    ∀ (f1 : ℕ) (l acc : List Char) (f2 : ℕ), l.length ≤ f1 → l.length ≤ f2 →
      splitSepGo c cs f1 acc l = splitSepGo c cs f2 acc l := by
  intro f1
  induction f1 with
  | zero =>
    intro l acc f2 h1 _
    have : l = [] := List.eq_nil_of_length_eq_zero (Nat.le_zero.mp h1)
    subst this
    cases f2 <;> rfl
  | succ f ih =>
    intro l acc f2 h1 h2
    cases l with
    | nil => cases f2 <;> rfl
    | cons b rest =>
      cases f2 with
      | zero => simp at h2
      | succ g =>
        simp only [splitSepGo]
        split
        · have hd : (List.drop cs.length rest).length ≤ f := by
            simp only [List.length_cons] at h1
            simp only [List.length_drop]
            omega
          have hd2 : (List.drop cs.length rest).length ≤ g := by
            simp only [List.length_cons] at h2
            simp only [List.length_drop]
            omega
          rw [ih (List.drop cs.length rest) [] g hd hd2]
        · have hr : rest.length ≤ f := by simp only [List.length_cons] at h1; omega
          have hr2 : rest.length ≤ g := by simp only [List.length_cons] at h2; omega
          rw [ih rest (b :: acc) g hr hr2]

theorem splitSepGo_no_sep (cs : List Char) :
    ∀ (l acc : List Char) (fuel : ℕ), l.length ≤ fuel → (∀ x ∈ l, x ≠ ' ') →
      splitSepGo ' ' cs fuel acc l = [acc.reverse ++ l] := by
  intro l
  induction l with
  | nil =>
    intro acc fuel _ _
    cases fuel <;> simp [splitSepGo]
  | cons b rest ih =>
    intro acc fuel hf hl
    cases fuel with
    | zero => simp at hf
    | succ f =>
      simp only [splitSepGo]
      have hb : b ≠ ' ' := hl b (by simp)
      rw [if_neg]
      · rw [ih (b :: acc) f (by simp at hf; omega) (fun x hx => hl x (by simp [hx]))]
        simp
      · intro h
        simp only [List.take_succ_cons] at h
        exact hb (by injection h)

theorem splitSep_no_sep (cs l : List Char) (hl : ∀ x ∈ l, x ≠ ' ') :
    splitSep ' ' cs l = [l] := by
  have := splitSepGo_no_sep cs l [] l.length le_rfl hl
  simpa [splitSep] using this

theorem splitSepGo_sep (cs ys : List Char) :
    ∀ (xs acc : List Char) (fuel : ℕ),
      (xs ++ (' ' :: cs) ++ ys).length ≤ fuel → (∀ x ∈ xs, x ≠ ' ') →
      ∃ f, ys.length ≤ f ∧
        splitSepGo ' ' cs fuel acc (xs ++ (' ' :: cs) ++ ys) =
          (acc.reverse ++ xs) :: splitSepGo ' ' cs f [] ys := by
  intro xs
  induction xs with
  | nil =>
    intro acc fuel hf _
    simp only [List.nil_append, List.length_cons, List.length_append] at hf ⊢
    cases fuel with
    | zero => omega
    | succ f =>
      refine ⟨f, by omega, ?_⟩
      simp only [splitSepGo, List.append_eq]
      rw [if_pos]
      · rw [List.drop_left]
        simp
      · simp [List.take_succ_cons, List.take_left]
  | cons b xs' ih =>
    intro acc fuel hf hxs
    have hb : b ≠ ' ' := hxs b (by simp)
    cases fuel with
    | zero => simp at hf
    | succ f =>
      simp only [List.cons_append, splitSepGo, List.append_eq]
      rw [if_neg]
      · obtain ⟨g, hg, heq⟩ := ih (b :: acc) f (by simp at hf ⊢; omega)
          (fun x hx => hxs x (by simp [hx]))
        refine ⟨g, hg, ?_⟩
        rw [heq]
        simp
      · intro h
        simp only [List.take_succ_cons] at h
        exact hb (by injection h)

theorem splitSep_sep (cs xs ys : List Char) (hxs : ∀ x ∈ xs, x ≠ ' ') :
    splitSep ' ' cs (xs ++ (' ' :: cs) ++ ys) = xs :: splitSep ' ' cs ys := by
  obtain ⟨f, hf, heq⟩ :=
    splitSepGo_sep cs ys xs [] (xs ++ (' ' :: cs) ++ ys).length le_rfl hxs
  rw [splitSep, heq, splitSepGo_fuel ' ' cs f ys [] ys.length hf le_rfl]
  simp [splitSep]

/-! ### Digit rendering and `int()` round trip -/

theorem digitChar_facts (d : ℕ) (h : d < 10) :
    (Nat.digitChar d).isDigit = true ∧ (Nat.digitChar d).toNat - 48 = d ∧
    (Nat.digitChar d).isWhitespace = false ∧ Nat.digitChar d ≠ '-' ∧
    Nat.digitChar d ≠ '+' ∧ Nat.digitChar d ≠ ' ' := by
  interval_cases d <;> refine ⟨by decide, by decide, by decide, by decide, by decide, by decide⟩

theorem foldl_digitsChars (ds : List ℕ) :
    (∀ d ∈ ds, d < 10) → ∀ n : ℕ,
      List.foldl (fun a c => 10 * a + (c.toNat - 48)) n (digitsChars ds) =
        List.foldl (fun a d => 10 * a + d) n ds := by
  induction ds with
  | nil => intro _ n; rfl
  | cons d ds ih =>
    intro h n
    simp only [digitsChars, List.map_cons, List.foldl_cons]
    rw [(digitChar_facts d (h d (by simp))).2.1]
    exact ih (fun x hx => h x (by simp [hx])) _

theorem parseDigits_digitsChars (ds : List ℕ) (h : ∀ d ∈ ds, d < 10) (hne : ds ≠ []) :
    parseDigits (digitsChars ds) = some (digitsVal ds) := by
  unfold parseDigits
  rw [if_pos, foldl_digitsChars ds h 0]
  · rfl
  · refine ⟨by simpa [digitsChars], ?_⟩
    simp only [digitsChars, List.all_eq_true]
    intro c hc
    obtain ⟨d, hd, rfl⟩ := List.mem_map.mp hc
    exact (digitChar_facts d (h d hd)).1

theorem no_ws_digitsChars (ds : List ℕ) (h : ∀ d ∈ ds, d < 10) :
    ∀ c ∈ digitsChars ds, c.isWhitespace = false := by
  intro c hc
  obtain ⟨d, hd, rfl⟩ := List.mem_map.mp hc
  exact (digitChar_facts d (h d hd)).2.2.1

theorem dropWhile_of_all_neg {α : Type} (p : α → Bool) (l : List α)
    (h : ∀ x ∈ l, p x = false) : l.dropWhile p = l := by
  cases l with
  | nil => rfl
  | cons b rest => simp [List.dropWhile_cons, h b (by simp)]

theorem pyInt_digitsChars (ds : List ℕ) (h : ∀ d ∈ ds, d < 10) (hne : ds ≠ []) :
    pyInt (digitsChars ds) = some ((digitsVal ds : ℤ)) := by
  unfold pyInt
  have hnw := no_ws_digitsChars ds h
  rw [dropWhile_of_all_neg _ _ hnw,
      dropWhile_of_all_neg _ _ (fun x hx => hnw x (List.mem_reverse.mp hx)),
      List.reverse_reverse]
  cases ds with
  | nil => exact absurd rfl hne
  | cons d ds' =>
    have hd := digitChar_facts d (h d (by simp))
    simp only [digitsChars, List.map_cons]
    split
    · next heq => exact absurd (by injection heq) hd.2.2.2.1
    · next heq => exact absurd (by injection heq) hd.2.2.2.2.1
    · rw [show Nat.digitChar d :: List.map Nat.digitChar ds' = digitsChars (d :: ds') from rfl,
         parseDigits_digitsChars (d :: ds') h hne]
      rfl

/-! ### Behaviour of `calculate_tempo_score` on well-formed scores -/

theorem tempoRounds_spaced (ds es : List ℕ)
    (hds : ∀ d ∈ ds, d < 10) (hes : ∀ d ∈ es, d < 10) (h1 : ds ≠ []) (h2 : es ≠ []) :
    tempoRounds [("score", Jv.str ⟨digitsChars ds ++ ' ' :: '-' :: ' ' :: digitsChars es⟩)] =
      if 0 < (digitsVal ds : ℤ) + (digitsVal es : ℤ) then
        some ((digitsVal ds : ℤ) + (digitsVal es : ℤ))
      else none := by
  have hsplit : splitSep ' ' ['-', ' '] (digitsChars ds ++ ' ' :: '-' :: ' ' :: digitsChars es) =
      digitsChars ds :: splitSep ' ' ['-', ' '] (digitsChars es) := by
    have := splitSep_sep ['-', ' '] (digitsChars ds) (digitsChars es)
      (fun x hx h => by
        have := no_ws_digitsChars ds hds x hx
        subst h
        simp at this)
    simpa using this
  have hys : splitSep ' ' ['-', ' '] (digitsChars es) = [digitsChars es] :=
    splitSep_no_sep _ _ (fun x hx h => by
      have := no_ws_digitsChars es hes x hx
      subst h
      simp at this)
  unfold tempoRounds dictGet
  simp only [List.lookup, beq_self_eq_true, Option.getD_some]
  rw [hsplit, hys]
  simp [pyInt_digitsChars ds hds h1, pyInt_digitsChars es hes h2]

theorem tempoRounds_nospaced (ds es : List ℕ)
    (hds : ∀ d ∈ ds, d < 10) (hes : ∀ d ∈ es, d < 10) :
    tempoRounds [("score", Jv.str ⟨digitsChars ds ++ '-' :: digitsChars es⟩)] = none := by
  have hsplit : splitSep ' ' ['-', ' '] (digitsChars ds ++ '-' :: digitsChars es) =
      [digitsChars ds ++ '-' :: digitsChars es] := by
    refine splitSep_no_sep _ _ ?_
    intro x hx
    rcases List.mem_append.mp hx with hx | hx
    · intro h
      have := no_ws_digitsChars ds hds x hx
      subst h
      simp at this
    · rcases List.mem_cons.mp hx with rfl | hx
      · decide
      · intro h
        have := no_ws_digitsChars es hes x hx
        subst h
        simp at this
  unfold tempoRounds dictGet
  simp only [List.lookup, beq_self_eq_true, Option.getD_some]
  rw [hsplit]
  simp

/-! ### Counter and clipping helpers -/

theorem clipQ_bounds (lo hi x : ℚ) (h : lo ≤ hi) :
    lo ≤ clipQ lo hi x ∧ clipQ lo hi x ≤ hi :=
  ⟨le_max_left _ _, max_le h (min_le_left _ _)⟩

theorem comebackStep_shift (init : ℕ × ℕ) (m : Dict) :
    comebackStep init m =
      (init.1 + (comebackStep (0, 0) m).1, init.2 + (comebackStep (0, 0) m).2) := by
  unfold comebackStep
  cases scoreParts m with
  | none => simp
  | some wl =>
    dsimp only
    split_ifs <;> simp [Prod.ext_iff]

theorem comeback_foldl_shift (l : List Dict) :
    ∀ init : ℕ × ℕ, l.foldl comebackStep init =
      (init.1 + (comebackCounts l).1, init.2 + (comebackCounts l).2) := by
  induction l with
  | nil => intro init; simp [comebackCounts]
  | cons m l ih =>
    intro init
    rw [List.foldl_cons, ih (comebackStep init m), comebackStep_shift init m]
    have hmc : comebackCounts (m :: l) = List.foldl comebackStep (comebackStep (0, 0) m) l := by
      simp [comebackCounts]
    rw [hmc, ih (comebackStep (0, 0) m)]
    simp [Prod.ext_iff]
    omega

theorem comebackCounts_cons (m : Dict) (l : List Dict) :
    comebackCounts (m :: l) =
      ((comebackStep (0, 0) m).1 + (comebackCounts l).1,
       (comebackStep (0, 0) m).2 + (comebackCounts l).2) := by
  have : comebackCounts (m :: l) = List.foldl comebackStep (comebackStep (0, 0) m) l := by
    simp [comebackCounts]
  rw [this, comeback_foldl_shift l (comebackStep (0, 0) m)]

theorem comebackStep_le (m : Dict) :
    (comebackStep (0, 0) m).2 ≤ (comebackStep (0, 0) m).1 := by
  unfold comebackStep
  cases scoreParts m with
  | none => simp
  | some wl =>
    dsimp only
    split_ifs <;> simp

theorem comebackCounts_le (l : List Dict) :
    (comebackCounts l).2 ≤ (comebackCounts l).1 := by
  induction l with
  | nil => simp [comebackCounts]
  | cons m l ih =>
    rw [comebackCounts_cons]
    exact Nat.add_le_add (comebackStep_le m) ih

theorem base_prob_ones :
    base_prob [("win_rate", Jv.num 1), ("tempo_score", Jv.num 1),
               ("comeback_probability", Jv.num 1)] = some (4/5) := by
  simp [base_prob, getFeat, List.lookup]
  norm_num

/-! ### Claims C1 - C5 -/

/-- C1, counterexample: the code splits scores on `" - "` only, so the
well-formed no-space score `"13-5"` is skipped (tempoScore keeps its `0.5`
default) while `"13 - 5"` contributes `1 - 18/30 = 2/5`; the two spellings do
not contribute equally, contrary to the claim. -/
theorem C1_counterexample :
    calculate_tempo_score [[("score", Jv.str "13-5")]] = 1/2 ∧
    calculate_tempo_score [[("score", Jv.str "13 - 5")]] = 2/5 ∧
    (1/2 : ℚ) ≠ 2/5 := by
  refine ⟨?_, ?_, by norm_num⟩
  · have h : tempoRounds [("score", Jv.str "13-5")] = none := by decide
    simp [calculate_tempo_score, tempo_scores, tempoVal, h, clipQ]
    norm_num
  · have h : tempoRounds [("score", Jv.str "13 - 5")] = some 18 := by decide
    simp [calculate_tempo_score, tempo_scores, tempoVal, h, clipQ, mean]
    norm_num

/-- C1, amended: `tempoScore` parses a score only when the two integers are
separated by exactly `" - "`; such a match with digit strings `A`, `B` and
`A + B > 0` contributes `1 - (A+B)/30` to the `tempo_scores` list, while the
no-space spelling `"A-B"` fails `split(' - ')` parsing and is skipped,
leaving both `tempo_scores` and `tempoScore` unchanged. -/
theorem C1_amended (ds es : List ℕ) (l : List Dict)
    (hds : ∀ d ∈ ds, d < 10) (hes : ∀ d ∈ es, d < 10)
    (h1 : ds ≠ []) (h2 : es ≠ []) (hpos : 0 < digitsVal ds + digitsVal es) :
    tempo_scores ([("score", Jv.str ⟨digitsChars ds ++ ' ' :: '-' :: ' ' :: digitsChars es⟩)] :: l) =
      (1 - ((digitsVal ds + digitsVal es : ℕ) : ℚ) / 30) :: tempo_scores l ∧
    tempo_scores ([("score", Jv.str ⟨digitsChars ds ++ '-' :: digitsChars es⟩)] :: l) =
      tempo_scores l ∧
    calculate_tempo_score ([("score", Jv.str ⟨digitsChars ds ++ '-' :: digitsChars es⟩)] :: l) =
      calculate_tempo_score l := by
  have hpos' : 0 < (digitsVal ds : ℤ) + (digitsVal es : ℤ) := by exact_mod_cast hpos
  have hs := tempoRounds_spaced ds es hds hes h1 h2
  rw [if_pos hpos'] at hs
  have hn := tempoRounds_nospaced ds es hds hes
  have hnos : tempo_scores ([("score", Jv.str ⟨digitsChars ds ++ '-' :: digitsChars es⟩)] :: l) =
      tempo_scores l := by
    simp [tempo_scores, List.filterMap_cons, tempoVal, hn]
  refine ⟨?_, hnos, ?_⟩
  · have hval : tempoVal [("score", Jv.str ⟨digitsChars ds ++ ' ' :: '-' :: ' ' :: digitsChars es⟩)] =
        some (1 - ((digitsVal ds + digitsVal es : ℕ) : ℚ) / 30) := by
      rw [tempoVal, hs]
      simp only [Option.map_some, Option.map_some', Option.some.injEq]
      push_cast
      ring
    simp [tempo_scores, List.filterMap_cons, hval]
  · by_cases hl : l = []
    · subst hl
      have hts : tempo_scores [[("score", Jv.str ⟨digitsChars ds ++ '-' :: digitsChars es⟩)]] = [] := by
        simp [tempo_scores, tempoVal, hn]
      simp [calculate_tempo_score, hts, clipQ]
      norm_num
    · rw [calculate_tempo_score, calculate_tempo_score, if_neg (by simp), if_neg hl, hnos]

/-- C1 witness for `C1_amended` at `A = "1"`, `B = "2"`. -/
theorem C1_amended_witness :
    (∀ d ∈ ([1] : List ℕ), d < 10) ∧ (∀ d ∈ ([2] : List ℕ), d < 10) ∧
    ([1] : List ℕ) ≠ [] ∧ ([2] : List ℕ) ≠ [] ∧
    0 < digitsVal [1] + digitsVal [2] ∧
    (tempo_scores [[("score", Jv.str ⟨digitsChars [1] ++ ' ' :: '-' :: ' ' :: digitsChars [2]⟩)]] =
       (1 - ((digitsVal [1] + digitsVal [2] : ℕ) : ℚ) / 30) :: tempo_scores [] ∧
     tempo_scores [[("score", Jv.str ⟨digitsChars [1] ++ '-' :: digitsChars [2]⟩)]] =
       tempo_scores [] ∧
     calculate_tempo_score [[("score", Jv.str ⟨digitsChars [1] ++ '-' :: digitsChars [2]⟩)]] =
       calculate_tempo_score []) :=
  ⟨by decide, by decide, by decide, by decide, by decide,
   C1_amended [1] [2] [] (by decide) (by decide) (by decide) (by decide) (by decide)⟩

/-- C2, counterexample: the code uses the signed differences
`lost - won <= 2` and `won - lost >= 4`, not absolute margins.  A match
recorded as a loss with score `"13 - 5"` has absolute margin 8, so under the
claim it would not qualify (result `0.5`), but the code counts it as a
qualifying near-loss (`5 - 13 = -8 <= 2`) and returns `0`. -/
theorem C2_counterexample :
    calculate_comeback_probability [[("result", Jv.str "loss"), ("score", Jv.str "13 - 5")]] = 0 ∧
    comebackProbabilityAbs [[("result", Jv.str "loss"), ("score", Jv.str "13 - 5")]] = 1/2 ∧
    (0 : ℚ) ≠ 1/2 := by
  refine ⟨?_, ?_, by norm_num⟩
  · have h : scoreParts [("result", Jv.str "loss"), ("score", Jv.str "13 - 5")] = some (13, 5) := by
      decide
    simp [calculate_comeback_probability, comebackCounts, comebackStep, h]
  · have h : scoreParts [("result", Jv.str "loss"), ("score", Jv.str "13 - 5")] = some (13, 5) := by
      decide
    simp [comebackProbabilityAbs, comebackStepAbs, h]

/-- C2, amended: for a match whose score parses as `(won, lost)`, membership
in the qualifying set is decided by the signed differences: a loss qualifies
iff `lost - won ≤ 2`, and a win qualifies (and counts as a comeback) iff
`won - lost ≥ 4`. -/
theorem C2_amended (m : Dict) (l : List Dict) (w lo : ℤ)
    (hp : scoreParts m = some (w, lo)) :
    (List.lookup "result" m = some (Jv.str "loss") →
       comebackCounts (m :: l) =
         ((if lo - w ≤ 2 then 1 else 0) + (comebackCounts l).1, (comebackCounts l).2)) ∧
    (List.lookup "result" m = some (Jv.str "win") →
       comebackCounts (m :: l) =
         ((if 4 ≤ w - lo then 1 else 0) + (comebackCounts l).1,
          (if 4 ≤ w - lo then 1 else 0) + (comebackCounts l).2)) := by
  constructor
  · intro hres
    rw [comebackCounts_cons]
    have hstep : comebackStep (0, 0) m = ((if lo - w ≤ 2 then 1 else 0), 0) := by
      unfold comebackStep
      rw [hp]
      dsimp only
      simp [hres]
    rw [hstep]
    simp
  · intro hres
    rw [comebackCounts_cons]
    have hstep : comebackStep (0, 0) m =
        ((if 4 ≤ w - lo then 1 else 0), (if 4 ≤ w - lo then 1 else 0)) := by
      unfold comebackStep
      rw [hp]
      dsimp only
      simp [hres]
      split_ifs <;> simp
    rw [hstep]

/-- C2 witness for `C2_amended`: a loss `"11 - 13"` (margin 2) qualifies. -/
theorem C2_amended_witness :
    scoreParts [("result", Jv.str "loss"), ("score", Jv.str "11 - 13")] = some (11, 13) ∧
    comebackCounts [[("result", Jv.str "loss"), ("score", Jv.str "11 - 13")]] =
      ((if (13 : ℤ) - 11 ≤ 2 then 1 else 0) + (comebackCounts []).1, (comebackCounts []).2) := by
  have hp : scoreParts [("result", Jv.str "loss"), ("score", Jv.str "11 - 13")] = some (11, 13) := by
    decide
  exact ⟨hp, (C2_amended _ [] 11 13 hp).1 (by decide)⟩

/-- C3: the claim that no metric ever raises fails for `winRateTrend`.  On
`[{}, {}]` (two records with no `result` key) the pandas column access
`df['result']` raises `KeyError`, aborting the whole extraction; the model
returns the corresponding error value. -/
theorem C3_trend_keyerror :
    calculate_win_rate_trend [[], []] = Except.error "KeyError: result" := rfl

/-- C4, counterexample: with all three features `1.0` the base probability is
`0.5 + 0.2 + 0.05 + 0.05 = 0.8`, and the clamp to `[0.1, 0.9]` leaves it at
`0.8`, not `0.9` as the claim states. -/
theorem C4_counterexample :
    base_prob [("win_rate", Jv.num 1), ("tempo_score", Jv.num 1),
               ("comeback_probability", Jv.num 1)] = some (4/5) ∧
    (4/5 : ℚ) ≠ 9/10 :=
  ⟨base_prob_ones, by norm_num⟩

/-- C4, amended: with `winRate = tempoScore = comebackProbability = 1.0` the
clamped base probability is exactly `0.8`, strictly below the clamp's upper
bound `0.9` (the clamp is not hit). -/
theorem C4_amended :
    base_prob [("win_rate", Jv.num 1), ("tempo_score", Jv.num 1),
               ("comeback_probability", Jv.num 1)] = some (4/5) ∧
    (4/5 : ℚ) < 9/10 :=
  ⟨base_prob_ones, by norm_num⟩

/-- C5: whatever the input match list, `tempoScore` lies in `[0, 1]`,
`winRateTrend` lies in `[-1, 1]` whenever it returns, and
`comebackProbability` lies in `[0, 1]`. -/
theorem C5_metric_ranges (ms : List Dict) :
    (0 ≤ calculate_tempo_score ms ∧ calculate_tempo_score ms ≤ 1) ∧
    (∀ t : ℚ, calculate_win_rate_trend ms = Except.ok t → -1 ≤ t ∧ t ≤ 1) ∧
    (0 ≤ calculate_comeback_probability ms ∧ calculate_comeback_probability ms ≤ 1) := by
  refine ⟨?_, ?_, ?_⟩
  · unfold calculate_tempo_score
    split_ifs
    · norm_num
    · exact clipQ_bounds 0 1 _ (by norm_num)
    · exact clipQ_bounds 0 1 _ (by norm_num)
  · intro t ht
    unfold calculate_win_rate_trend at ht
    split_ifs at ht
    all_goals simp only [Except.ok.injEq] at ht
    all_goals subst ht
    all_goals first
      | exact clipQ_bounds (-1) 1 _ (by norm_num)
      | norm_num
  · by_cases h : ms = []
    · simp [calculate_comeback_probability, h]
      norm_num
    · rw [calculate_comeback_probability, if_neg h]
      dsimp only
      split_ifs with h2
      · constructor
        · positivity
        · rw [div_le_one (by exact_mod_cast h2)]
          exact_mod_cast comebackCounts_le ms
      · norm_num

/-- C5 witness: a two-match list on which `winRateTrend` returns `0`. -/
theorem C5_witness :
    calculate_win_rate_trend [[("result", Jv.str "win")], [("result", Jv.str "loss")]] =
      Except.ok 0 ∧ ((-1 : ℚ) ≤ 0 ∧ (0 : ℚ) ≤ 1) ∧
    (0 ≤ calculate_tempo_score [[("result", Jv.str "win")], [("result", Jv.str "loss")]] ∧
     calculate_tempo_score [[("result", Jv.str "win")], [("result", Jv.str "loss")]] ≤ 1) := by
  have h : calculate_win_rate_trend [[("result", Jv.str "win")], [("result", Jv.str "loss")]] =
      Except.ok 0 := by
    simp [calculate_win_rate_trend, winInd, mean, clipQ, List.lookup]
  exact ⟨h, (C5_metric_ranges _).2.1 0 h, (C5_metric_ranges _).1⟩


/-! ### The exact similarity order agrees with the real order -/

theorem sq_le_iff_le (a b : ℝ) (ha : 0 ≤ a) (hb : 0 ≤ b) : a ≤ b ↔ a ^ 2 ≤ b ^ 2 :=
  ⟨fun h => pow_le_pow_left₀ ha h 2, fun h => le_of_pow_le_pow_left₀ two_ne_zero hb h⟩

theorem SimVal.toReal_sq (s : SimVal) : s.toReal ^ 2 = ((s.sq : ℚ) : ℝ) := by
  unfold SimVal.toReal SimVal.sq
  split_ifs with h
  · have hden : (0:ℝ) < (s.den : ℝ) := by exact_mod_cast h
    rw [div_pow, Real.sq_sqrt hden.le]
    push_cast
    ring
  · norm_num

theorem SimVal.nonneg_iff (s : SimVal) : 0 ≤ s.toReal ↔ 0 ≤ s.sgnNum := by
  unfold SimVal.toReal SimVal.sgnNum
  split_ifs with h
  · have hs : 0 < Real.sqrt (s.den : ℝ) := Real.sqrt_pos.2 (by exact_mod_cast h)
    rw [le_div_iff₀ hs, zero_mul]
    exact ⟨fun h2 => by exact_mod_cast h2, fun h2 => by exact_mod_cast h2⟩
  · simp

theorem SimVal.nonpos_iff (s : SimVal) : s.toReal ≤ 0 ↔ s.sgnNum ≤ 0 := by
  unfold SimVal.toReal SimVal.sgnNum
  split_ifs with h
  · have hs : 0 < Real.sqrt (s.den : ℝ) := Real.sqrt_pos.2 (by exact_mod_cast h)
    rw [div_le_iff₀ hs, zero_mul]
    exact ⟨fun h2 => by exact_mod_cast h2, fun h2 => by exact_mod_cast h2⟩
  · simp

theorem SimVal.le_iff (s t : SimVal) : SimVal.le s t = true ↔ s.toReal ≤ t.toReal := by
  unfold SimVal.le
  split_ifs with h
  · have ht : 0 ≤ t.toReal := (SimVal.nonneg_iff t).2 h
    simp only [Bool.or_eq_true, decide_eq_true_eq]
    constructor
    · rintro (hs | hsq)
      · exact le_trans ((SimVal.nonpos_iff s).2 hs) ht
      · by_cases hs0 : s.sgnNum ≤ 0
        · exact le_trans ((SimVal.nonpos_iff s).2 hs0) ht
        · have hs1 : 0 ≤ s.toReal := (SimVal.nonneg_iff s).2 (le_of_lt (lt_of_not_le hs0))
          rw [sq_le_iff_le s.toReal t.toReal hs1 ht, SimVal.toReal_sq, SimVal.toReal_sq]
          exact_mod_cast hsq
    · intro hle
      by_cases hs0 : s.sgnNum ≤ 0
      · exact Or.inl hs0
      · right
        have hs1 : 0 ≤ s.toReal := (SimVal.nonneg_iff s).2 (le_of_lt (lt_of_not_le hs0))
        have h2 := (sq_le_iff_le _ _ hs1 ht).1 hle
        rw [SimVal.toReal_sq, SimVal.toReal_sq] at h2
        exact_mod_cast h2
  · push_neg at h
    have ht : t.toReal < 0 :=
      lt_of_not_ge fun hge => absurd ((SimVal.nonneg_iff t).1 hge) (not_le.2 h)
    simp only [Bool.and_eq_true, decide_eq_true_eq]
    constructor
    · rintro ⟨hs, hsq⟩
      have hsneg : s.toReal < 0 :=
        lt_of_not_ge fun hge => absurd ((SimVal.nonneg_iff s).1 hge) (not_le.2 hs)
      have h1 : (0:ℝ) ≤ -t.toReal := by linarith
      have h2 : (0:ℝ) ≤ -s.toReal := by linarith
      have h3 : -t.toReal ≤ -s.toReal := by
        rw [sq_le_iff_le _ _ h1 h2, neg_sq, neg_sq, SimVal.toReal_sq, SimVal.toReal_sq]
        exact_mod_cast hsq
      linarith
    · intro hle
      have hsneg : s.toReal < 0 := lt_of_le_of_lt hle ht
      have hs : s.sgnNum < 0 :=
        lt_of_not_ge fun hge => absurd ((SimVal.nonneg_iff s).2 hge) (not_le.2 hsneg)
      refine ⟨hs, ?_⟩
      have h1 : (0:ℝ) ≤ -t.toReal := by linarith
      have h2 : (0:ℝ) ≤ -s.toReal := by linarith
      have h3 : -t.toReal ≤ -s.toReal := by linarith
      rw [sq_le_iff_le _ _ h1 h2, neg_sq, neg_sq, SimVal.toReal_sq, SimVal.toReal_sq] at h3
      exact_mod_cast h3

theorem simEquiv_iff (s t : SimVal) : simEquiv s t = true ↔ s.toReal = t.toReal := by
  unfold simEquiv
  rw [Bool.and_eq_true, SimVal.le_iff, SimVal.le_iff]
  exact ⟨fun h => le_antisymm h.1 h.2, fun h => ⟨h.le, h.ge⟩⟩

theorem simGE_iff (p q : SimVal × Dict) : simGE p q ↔ q.1.toReal ≤ p.1.toReal := by
  unfold simGE
  rw [SimVal.le_iff]

instance : IsTotal (SimVal × Dict) simGE :=
  ⟨fun p q => by rw [simGE_iff, simGE_iff]; exact le_total _ _⟩

instance : IsTrans (SimVal × Dict) simGE :=
  ⟨fun p q r h1 h2 => by
    rw [simGE_iff] at h1 h2 ⊢
    exact le_trans h2 h1⟩

/-! ### Cauchy-Schwarz for the positional dot product, and rounding bounds -/

theorem sumSq_nonneg (a : List ℚ) : 0 ≤ sumSq a := by
  unfold sumSq
  apply List.sum_nonneg
  intro x hx
  obtain ⟨y, _, rfl⟩ := List.mem_map.mp hx
  exact mul_self_nonneg y

theorem dot_nonneg (a b : List ℚ) (ha : ∀ x ∈ a, 0 ≤ x) (hb : ∀ x ∈ b, 0 ≤ x) :
    0 ≤ dot a b := by
  unfold dot
  apply List.sum_nonneg
  intro x hx
  obtain ⟨p, hp, rfl⟩ := List.mem_map.mp hx
  obtain ⟨h1, h2⟩ := List.of_mem_zip hp
  exact mul_nonneg (ha _ h1) (hb _ h2)

theorem dot_sq_le (a : List ℚ) : ∀ b : List ℚ, (dot a b) ^ 2 ≤ sumSq a * sumSq b := by
  induction a with
  | nil =>
    intro b
    simp [dot, sumSq]
  | cons x a' ih =>
    intro b
    cases b with
    | nil =>
      simp [dot, sumSq]
    | cons y b' =>
      have hsa := sumSq_nonneg a'
      have hsb := sumSq_nonneg b'
      have IH := ih b'
      have hdot : dot (x :: a') (y :: b') = x * y + dot a' b' := by
        simp [dot, List.zip_cons_cons]
      have hsx : sumSq (x :: a') = x * x + sumSq a' := by simp [sumSq]
      have hsy : sumSq (y :: b') = y * y + sumSq b' := by simp [sumSq]
      rw [hdot, hsx, hsy]
      by_cases h0 : sumSq b' = 0
      · have hd0 : dot a' b' = 0 := by nlinarith [sq_nonneg (dot a' b')]
        rw [h0, hd0]
        nlinarith [mul_self_nonneg x, mul_self_nonneg y, hsa]
      · have hpos : 0 < sumSq b' := lt_of_le_of_ne hsb (Ne.symm h0)
        nlinarith [sq_nonneg (x * sumSq b' - y * dot a' b'),
                   mul_nonneg (sq_nonneg y) (sub_nonneg.2 IH),
                   mul_nonneg hsa hsb, hpos, IH]

theorem cosine_similarity_bounds (a b : List ℚ)
    (ha : ∀ x ∈ a, 0 ≤ x) (hb : ∀ x ∈ b, 0 ≤ x) :
    0 ≤ (cosine_similarity a b).toReal ∧ (cosine_similarity a b).toReal ≤ 1 := by
  unfold cosine_similarity
  split_ifs with h
  · have hd : (0:ℝ) ≤ ((dot a b : ℚ) : ℝ) := by exact_mod_cast dot_nonneg a b ha hb
    have hden : (0:ℝ) < ((sumSq a * sumSq b : ℚ) : ℝ) := by exact_mod_cast h
    have htr : SimVal.toReal ⟨dot a b, sumSq a * sumSq b⟩ =
        ((dot a b : ℚ) : ℝ) / Real.sqrt ((sumSq a * sumSq b : ℚ) : ℝ) := by
      unfold SimVal.toReal
      rw [if_pos h]
    rw [htr]
    constructor
    · exact div_nonneg hd (Real.sqrt_nonneg _)
    · rw [div_le_one (Real.sqrt_pos.2 hden)]
      refine (Real.le_sqrt hd hden.le).2 ?_
      push_cast
      exact_mod_cast dot_sq_le a b
  · constructor <;> simp [SimVal.toReal]

theorem cosine_similarity_zero (a b : List ℚ) (h : sumSq a = 0 ∨ sumSq b = 0) :
    (cosine_similarity a b).toReal = 0 := by
  unfold cosine_similarity
  rw [if_neg]
  · simp [SimVal.toReal]
  · rcases h with h | h <;> simp [h]

theorem dot_le_sqrt_mul_sqrt (a b : List ℚ) :
    ((dot a b : ℚ) : ℝ) ≤ Real.sqrt (sumSq a) * Real.sqrt (sumSq b) := by
  rw [← Real.sqrt_mul (by exact_mod_cast sumSq_nonneg a)]
  by_cases hd : dot a b ≤ 0
  · exact le_trans (by exact_mod_cast hd) (Real.sqrt_nonneg _)
  · push_neg at hd
    refine (Real.le_sqrt (by exact_mod_cast hd.le) ?_).2 ?_
    · have := mul_nonneg (sumSq_nonneg a) (sumSq_nonneg b)
      exact_mod_cast this
    · exact_mod_cast dot_sq_le a b

theorem text_to_vector_nonneg (s : String) : ∀ x ∈ text_to_vector s, 0 ≤ x := by
  intro x hx
  obtain ⟨p, _, rfl⟩ := List.mem_map.mp hx
  exact_mod_cast Nat.zero_le p.2

theorem round3R_bounds (x : ℝ) (h0 : 0 ≤ x) (h1 : x ≤ 1) :
    0 ≤ round3R x ∧ round3R x ≤ 1 := by
  unfold round3R
  constructor
  · apply div_nonneg _ (by norm_num)
    have h : (0:ℤ) ≤ round (1000 * x) := by
      rw [round_eq]
      exact Int.le_floor.2 (by push_cast; linarith)
    exact_mod_cast h
  · rw [div_le_one (by norm_num : (0:ℝ) < 1000)]
    have h : round (1000 * x) ≤ 1000 := by
      rw [round_eq]
      have h2 : (1000 : ℝ) * x + 1/2 < ((1001 : ℤ) : ℝ) := by push_cast; linarith
      have := Int.floor_lt.2 h2
      omega
    exact_mod_cast h

/-! ### Stability of the insertion sort, and the rank enumeration -/

theorem filter_orderedInsert_pos {α : Type} (r : α → α → Prop) [DecidableRel r]
    (p : α → Bool) (a : α) (hpa : p a = true) (hkey : ∀ b, p b = true → r a b) :
    ∀ l : List α, (l.orderedInsert r a).filter p = a :: l.filter p := by
  intro l
  induction l with
  | nil => simp [List.orderedInsert, hpa]
  | cons b l ih =>
    rw [List.orderedInsert]
    split_ifs with hr
    · simp [List.filter_cons, hpa]
    · have hpb : p b = false := by
        rcases Bool.eq_false_or_eq_true (p b) with h | h
        · exact absurd (hkey b h) hr
        · exact h
      simp [List.filter_cons, hpb, ih]

theorem filter_orderedInsert_neg {α : Type} (r : α → α → Prop) [DecidableRel r]
    (p : α → Bool) (a : α) (hpa : p a = false) :
    ∀ l : List α, (l.orderedInsert r a).filter p = l.filter p := by
  intro l
  induction l with
  | nil => simp [List.orderedInsert, hpa]
  | cons b l ih =>
    rw [List.orderedInsert]
    split_ifs with hr
    · simp [List.filter_cons, hpa]
    · simp [List.filter_cons, ih]

theorem filter_insertionSort {α : Type} (r : α → α → Prop) [DecidableRel r]
    (p : α → Bool) (hkey : ∀ a b, p a = true → p b = true → r a b) :
    ∀ l : List α, (List.insertionSort r l).filter p = l.filter p := by
  intro l
  induction l with
  | nil => rfl
  | cons a l ih =>
    rw [List.insertionSort]
    rcases Bool.eq_false_or_eq_true (p a) with hpa | hpa
    · rw [filter_orderedInsert_pos r p a hpa (fun b hb => hkey a b hpa hb), ih]
      simp [List.filter_cons, hpa]
    · rw [filter_orderedInsert_neg r p a hpa, ih]
      simp [List.filter_cons, hpa]

theorem snd_mem_of_mem_enumFrom {α : Type} {x : ℕ × α} :
    ∀ (n : ℕ) (l : List α), x ∈ l.enumFrom n → x.2 ∈ l := by
  intro n l
  induction l generalizing n with
  | nil => simp [List.enumFrom]
  | cons a l ih =>
    intro h
    rcases List.mem_cons.mp h with rfl | h
    · simp
    · exact List.mem_cons.2 (Or.inr (ih (n + 1) h))

theorem mem_enumFrom_simResults {r : SimilarityResult} :
    ∀ (n : ℕ) (l : List (SimVal × Dict)),
      r ∈ (l.enumFrom n).map (fun ip => SimilarityResult.mk ip.2.2 ip.2.1 (ip.1 + 1)) →
      ∃ p ∈ l, r.record = p.2 ∧ r.simVal = p.1 := by
  intro n l
  induction l generalizing n with
  | nil => simp [List.enumFrom]
  | cons p l ih =>
    intro h
    simp only [List.enumFrom, List.map_cons] at h
    rcases List.mem_cons.mp h with rfl | h
    · exact ⟨p, by simp, rfl, rfl⟩
    · obtain ⟨p', hp', h1, h2⟩ := ih (n + 1) h
      exact ⟨p', List.mem_cons.2 (Or.inr hp'), h1, h2⟩

theorem map_simVal_enumFrom_simResults :
    ∀ (n : ℕ) (l : List (SimVal × Dict)),
      (((l.enumFrom n).map (fun ip => SimilarityResult.mk ip.2.2 ip.2.1 (ip.1 + 1))).map
          (fun x => x.simVal)) = l.map Prod.fst := by
  intro n l
  induction l generalizing n with
  | nil => rfl
  | cons p l ih =>
    simp only [List.enumFrom, List.map_cons]
    rw [ih (n + 1)]

theorem map_rank_enumFrom_simResults :
    ∀ (n : ℕ) (l : List (SimVal × Dict)),
      (((l.enumFrom n).map (fun ip => SimilarityResult.mk ip.2.2 ip.2.1 (ip.1 + 1))).map
          (fun x => x.rank)) = List.range' (n + 1) l.length := by
  intro n l
  induction l generalizing n with
  | nil => rfl
  | cons p l ih =>
    simp only [List.enumFrom, List.map_cons, List.length_cons, List.range']
    rw [ih (n + 1)]

theorem filter_map_enumFrom_simResults (v : SimVal) :
    ∀ (n : ℕ) (l : List (SimVal × Dict)),
      ((((l.enumFrom n).map (fun ip => SimilarityResult.mk ip.2.2 ip.2.1 (ip.1 + 1))).filter
          (fun x => simEquiv x.simVal v)).map (fun x => x.record)) =
        (l.filter (fun p => simEquiv p.1 v)).map Prod.snd := by
  intro n l
  induction l generalizing n with
  | nil => rfl
  | cons p l ih =>
    simp only [List.enumFrom, List.map_cons]
    rcases Bool.eq_false_or_eq_true (simEquiv p.1 v) with hv | hv <;>
      simp [List.filter_cons, hv, ih (n + 1)]

theorem pairwise_enumFrom_simResults {R : (SimVal × Dict) → (SimVal × Dict) → Prop}
    {S : SimilarityResult → SimilarityResult → Prop}
    (hRS : ∀ (i : ℕ) (a : SimVal × Dict) (j : ℕ) (b : SimVal × Dict), R a b →
      S (SimilarityResult.mk a.2 a.1 (i + 1)) (SimilarityResult.mk b.2 b.1 (j + 1))) :
    ∀ (n : ℕ) (l : List (SimVal × Dict)), l.Pairwise R →
      ((l.enumFrom n).map (fun ip => SimilarityResult.mk ip.2.2 ip.2.1 (ip.1 + 1))).Pairwise S := by
  intro n l
  induction l generalizing n with
  | nil => intro _; simp [List.enumFrom]
  | cons p l ih =>
    intro hp
    rcases List.pairwise_cons.mp hp with ⟨hhead, htail⟩
    simp only [List.enumFrom, List.map_cons]
    refine List.pairwise_cons.2 ⟨?_, ih (n + 1) htail⟩
    intro r hr
    obtain ⟨ip, hip, rfl⟩ := List.mem_map.mp hr
    exact hRS n p ip.1 ip.2 (hhead ip.2 (snd_mem_of_mem_enumFrom (n + 1) l hip))

theorem pySliceTo_sublist {α : Type} (l : List α) (k : ℤ) :
    List.Sublist (pySliceTo l k) l := by
  unfold pySliceTo
  split_ifs <;> exact List.take_sublist _ _

theorem sortedScored_perm (q : String) (h : List Dict) :
    List.Perm (sortedScored q h) (scoredList q h) :=
  List.perm_insertionSort _ _

theorem sortedScored_length (q : String) (h : List Dict) :
    (sortedScored q h).length = h.length := by
  rw [(sortedScored_perm q h).length_eq]
  simp [scoredList]

theorem sortedScored_sorted (q : String) (h : List Dict) :
    (sortedScored q h).Pairwise simGE :=
  List.sorted_insertionSort simGE _

/-! ### Claims C6 - C10 -/

theorem enum_eq_enumFrom {α : Type} (l : List α) : l.enum = l.enumFrom 0 := rfl

/-- C6: for every query, corpus and `topK ≥ 0`, `find_similar_matches` returns
exactly `min topK |corpus|` results; with `topK` larger than the corpus it
returns the whole corpus without error. -/
theorem C6_result_count (q : String) (corpus : List Dict) (k : ℤ) (hk : 0 ≤ k) :
    (find_similar_matches q corpus k).length = min k.toNat corpus.length := by
  unfold find_similar_matches
  rw [List.length_map, enum_eq_enumFrom, List.enumFrom_length]
  unfold pySliceTo
  rw [if_pos hk, List.length_take, sortedScored_length]

/-- C6 witness: `topK = 2` on the three-record mock corpus. -/
theorem C6_witness :
    (0 : ℤ) ≤ 2 ∧
    (find_similar_matches "C9 win T1" MOCK_HISTORY 2).length =
      min (2 : ℤ).toNat MOCK_HISTORY.length :=
  ⟨by decide, C6_result_count "C9 win T1" MOCK_HISTORY 2 (by decide)⟩

/-- C7: the returned sequence is ordered by similarity non-increasingly;
equal-similarity records keep their corpus order (the sorted `scored` list
filtered to any similarity class equals the unsorted one so filtered, and the
truncated output's classes are sublists of those); and the ranks are
`1, 2, ..., n` in output order.  `simEquiv` decides equality of the real
similarity values. -/
theorem C7_order_stability_ranks (q : String) (corpus : List Dict) (k : ℤ) :
    (find_similar_matches q corpus k).Pairwise
      (fun a b => b.simVal.toReal ≤ a.simVal.toReal) ∧
    (find_similar_matches q corpus k).map (fun r => r.rank) =
      List.range' 1 (find_similar_matches q corpus k).length ∧
    (∀ v : SimVal, (sortedScored q corpus).filter (fun p => simEquiv p.1 v) =
        (scoredList q corpus).filter (fun p => simEquiv p.1 v)) ∧
    (∀ v : SimVal,
        List.Sublist
          (((find_similar_matches q corpus k).filter (fun r => simEquiv r.simVal v)).map
            (fun r => r.record))
          (((scoredList q corpus).filter (fun p => simEquiv p.1 v)).map Prod.snd)) ∧
    (∀ s t : SimVal, simEquiv s t = true ↔ s.toReal = t.toReal) := by
  have hstab : ∀ v : SimVal, (sortedScored q corpus).filter (fun p => simEquiv p.1 v) =
      (scoredList q corpus).filter (fun p => simEquiv p.1 v) := by
    intro v
    unfold sortedScored
    apply filter_insertionSort
    intro a b hpa hpb
    rw [simGE_iff, (simEquiv_iff a.1 v).1 hpa, (simEquiv_iff b.1 v).1 hpb]
  refine ⟨?_, ?_, hstab, ?_, simEquiv_iff⟩
  · unfold find_similar_matches
    rw [enum_eq_enumFrom]
    exact pairwise_enumFrom_simResults
      (fun i a j b hab => (simGE_iff a b).1 hab) 0 _
      ((sortedScored_sorted q corpus).sublist (pySliceTo_sublist _ k))
  · unfold find_similar_matches
    rw [enum_eq_enumFrom, map_rank_enumFrom_simResults 0]
    simp [List.enumFrom_length]
  · intro v
    unfold find_similar_matches
    rw [enum_eq_enumFrom, filter_map_enumFrom_simResults v 0]
    have h1 := ((pySliceTo_sublist (sortedScored q corpus) k).filter
      (fun p => simEquiv p.1 v))
    rw [hstab v] at h1
    exact h1.map Prod.snd

/-- C8: every similarity attached by `find_similar_matches` lies in `[0, 1]`:
bag-of-words vectors have nonnegative entries, the cosine is `0` when either
norm is `0`, and the positional dot product never exceeds the product of the
full-vector norms (Cauchy-Schwarz in exact arithmetic). -/
theorem C8_similarity_bounds (q : String) (corpus : List Dict) (k : ℤ) :
    (∀ r ∈ find_similar_matches q corpus k,
        0 ≤ r.similarity ∧ r.similarity ≤ 1) ∧
    (∀ s : String, ∀ x ∈ text_to_vector s, 0 ≤ x) ∧
    (∀ a b : List ℚ, sumSq a = 0 ∨ sumSq b = 0 → (cosine_similarity a b).toReal = 0) ∧
    (∀ a b : List ℚ, ((dot a b : ℚ) : ℝ) ≤ Real.sqrt (sumSq a) * Real.sqrt (sumSq b)) := by
  refine ⟨?_, text_to_vector_nonneg, cosine_similarity_zero, dot_le_sqrt_mul_sqrt⟩
  intro r hr
  unfold find_similar_matches at hr
  rw [enum_eq_enumFrom] at hr
  obtain ⟨p, hp, _, hsim⟩ := mem_enumFrom_simResults 0 _ hr
  have hps : p ∈ scoredList q corpus :=
    (sortedScored_perm q corpus).mem_iff.1 ((pySliceTo_sublist _ k).subset hp)
  obtain ⟨m, _, rfl⟩ := List.mem_map.mp hps
  have hb := cosine_similarity_bounds (text_to_vector q) (text_to_vector (matchText m))
    (text_to_vector_nonneg q) (text_to_vector_nonneg (matchText m))
  unfold SimilarityResult.similarity
  rw [hsim]
  exact round3R_bounds _ hb.1 hb.2

/-- C8 witness: the top result for `"C9 win T1"` on the mock corpus. -/
theorem C8_witness :
    (SimilarityResult.mk
       [("teamName", Jv.str "C9"), ("result", Jv.str "win"), ("score", Jv.str "13-5"),
        ("opponent", Jv.str "T1")] ⟨3, 9⟩ 1 ∈
       find_similar_matches "C9 win T1" MOCK_HISTORY 5) ∧
    (0 ≤ (SimilarityResult.mk
       [("teamName", Jv.str "C9"), ("result", Jv.str "win"), ("score", Jv.str "13-5"),
        ("opponent", Jv.str "T1")] ⟨3, 9⟩ 1).similarity ∧
     (SimilarityResult.mk
       [("teamName", Jv.str "C9"), ("result", Jv.str "win"), ("score", Jv.str "13-5"),
        ("opponent", Jv.str "T1")] ⟨3, 9⟩ 1).similarity ≤ 1) := by
  have hm : SimilarityResult.mk
      [("teamName", Jv.str "C9"), ("result", Jv.str "win"), ("score", Jv.str "13-5"),
       ("opponent", Jv.str "T1")] ⟨3, 9⟩ 1 ∈
      find_similar_matches "C9 win T1" MOCK_HISTORY 5 := by
    with_unfolding_all decide
  exact ⟨hm, (C8_similarity_bounds "C9 win T1" MOCK_HISTORY 5).1 _ hm⟩

/-- C9: `find_similar_matches` does not modify the corpus: in this pure
embedding the `similarity` and `rank` values are carried in a fresh
`SimilarityResult` alongside the record, and the base record of every
returned result is a corpus record, unchanged. -/
theorem C9_corpus_untouched (q : String) (corpus : List Dict) (k : ℤ) :
    ∀ r ∈ find_similar_matches q corpus k, r.record ∈ corpus := by
  intro r hr
  unfold find_similar_matches at hr
  rw [enum_eq_enumFrom] at hr
  obtain ⟨p, hp, hrec, _⟩ := mem_enumFrom_simResults 0 _ hr
  have hps : p ∈ scoredList q corpus :=
    (sortedScored_perm q corpus).mem_iff.1 ((pySliceTo_sublist _ k).subset hp)
  obtain ⟨m, hm, rfl⟩ := List.mem_map.mp hps
  rw [hrec]
  exact hm

/-- C9 witness: the second result's record is the second mock-corpus
record. -/
theorem C9_witness :
    (SimilarityResult.mk
       [("teamName", Jv.str "C9"), ("result", Jv.str "loss"), ("score", Jv.str "11-13"),
        ("opponent", Jv.str "G2")] ⟨3, 9⟩ 2 ∈
       find_similar_matches "C9 win T1" MOCK_HISTORY 3) ∧
    (SimilarityResult.mk
       [("teamName", Jv.str "C9"), ("result", Jv.str "loss"), ("score", Jv.str "11-13"),
        ("opponent", Jv.str "G2")] ⟨3, 9⟩ 2).record ∈ MOCK_HISTORY := by
  have hm : SimilarityResult.mk
      [("teamName", Jv.str "C9"), ("result", Jv.str "loss"), ("score", Jv.str "11-13"),
       ("opponent", Jv.str "G2")] ⟨3, 9⟩ 2 ∈
      find_similar_matches "C9 win T1" MOCK_HISTORY 3 := by
    with_unfolding_all decide
  exact ⟨hm, C9_corpus_untouched "C9 win T1" MOCK_HISTORY 3 _ hm⟩

/-- C10: for negative `topK` with `|topK| ≤ |corpus|`, the Python slice
`scored[:topK]` drops the last `|topK|` sorted candidates, so exactly
`|corpus| + topK` results come back. -/
theorem C10_negative_topk (q : String) (corpus : List Dict) (k : ℤ)
    (hneg : k < 0) (hsz : -k ≤ (corpus.length : ℤ)) :
    ((find_similar_matches q corpus k).length : ℤ) = corpus.length + k := by
  unfold find_similar_matches
  rw [List.length_map, enum_eq_enumFrom, List.enumFrom_length]
  unfold pySliceTo
  rw [if_neg (not_le.2 hneg), List.length_take, sortedScored_length]
  omega

/-- C10 witness: `topK = -1` on the three-record mock corpus returns 2
results. -/
theorem C10_witness :
    (-1 : ℤ) < 0 ∧ -(-1 : ℤ) ≤ (MOCK_HISTORY.length : ℤ) ∧
    ((find_similar_matches "C9 win T1" MOCK_HISTORY (-1)).length : ℤ) =
      (MOCK_HISTORY.length : ℤ) + (-1) :=
  ⟨by decide, by decide,
   C10_negative_topk "C9 win T1" MOCK_HISTORY (-1) (by decide) (by decide)⟩


end ScoutIQ
